import Mathlib

/-!
Verification of the Otegui_segmentation microscopy pipeline
(`segmentation.py`, `seg_process.py`, `seg_process_batch.py`).

The Python source is shallowly embedded: images are grids of rational
intensities (`Img`), binary masks are Boolean pixel functions, connected
components are computed by a saturating expansion (breadth-first closure)
over the finite in-bounds foreground set, and the per-file batch driver is
explicit `Option` plumbing.  Machine floats are idealised as `ℚ`, except
where a float corner case is itself the point: the `0/0` in
`normalize_image` is tracked by an explicit `Option` (`none` = NaN), and
the platform-dependent NaN-to-uint8 cast is an explicit parameter `ub`.
-/

namespace Seg

/-- A pixel coordinate `(row, column)`. -/
abbrev Pix := ℕ × ℕ

/-- 4-connectivity (`connectivity=1` in scikit-image): orthogonal neighbours. -/
def adj4 (p q : Pix) : Bool :=
  (p.1 = q.1 ∧ (p.2 + 1 = q.2 ∨ q.2 + 1 = p.2)) ∨
  (p.2 = q.2 ∧ (p.1 + 1 = q.1 ∨ q.1 + 1 = p.1))

/-- Distance between naturals, as a natural number. -/
def natGap (a b : ℕ) : ℕ := (a - b) + (b - a)

/-- 8-connectivity (`connectivity=2`, the `measure.label` default for 2-D):
both coordinates differ by at most one. -/
def adj8 (p q : Pix) : Bool :=
  ¬ p = q ∧ natGap p.1 q.1 ≤ 1 ∧ natGap p.2 q.2 ≤ 1

/-- The in-bounds grid of an `h × w` image. -/
def grid (h w : ℕ) : Finset Pix := Finset.range h ×ˢ Finset.range w

/-- The in-bounds foreground pixels of a Boolean mask. -/
def fgSet (h w : ℕ) (m : ℕ → ℕ → Bool) : Finset Pix :=
  (grid h w).filter (fun p => m p.1 p.2 = true)

/-- One step of connected-component saturation: add every foreground pixel
adjacent to the current set. -/
def expand (fg : Finset Pix) (adj : Pix → Pix → Bool) (s : Finset Pix) : Finset Pix :=
  s ∪ fg.filter (fun q => ∃ p ∈ s, adj p q = true)

/-- The connected component of `p` inside the foreground set `fg`:
saturate neighbour expansion; `fg.card` rounds suffice to reach the fixpoint. -/
def comp (fg : Finset Pix) (adj : Pix → Pix → Bool) (p : Pix) : Finset Pix :=
  if p ∈ fg then (expand fg adj)^[fg.card] {p} else ∅

/-- The edge relation underlying `comp`: one adjacency step landing in `fg`. -/
def Rel (fg : Finset Pix) (adj : Pix → Pix → Bool) (a b : Pix) : Prop :=
  b ∈ fg ∧ adj a b = true

lemma subset_expand (fg : Finset Pix) (adj : Pix → Pix → Bool) (s : Finset Pix) :
    s ⊆ expand fg adj s :=
  Finset.subset_union_left

lemma expand_subset_union (fg : Finset Pix) (adj : Pix → Pix → Bool) (s : Finset Pix) :
    expand fg adj s ⊆ s ∪ fg := by
  intro x hx
  rcases Finset.mem_union.1 hx with h | h
  · exact Finset.mem_union.2 (Or.inl h)
  · exact Finset.mem_union.2 (Or.inr (Finset.mem_of_mem_filter x h))

lemma iterate_expand_subset (fg : Finset Pix) (adj : Pix → Pix → Bool) (p : Pix) (n : ℕ) :
    (expand fg adj)^[n] {p} ⊆ insert p fg := by
  induction n with
  | zero =>
      intro x hx
      simp only [Function.iterate_zero_apply, Finset.mem_singleton] at hx
      simp [hx]
  | succ n ih =>
      rw [Function.iterate_succ_apply']
      intro x hx
      rcases Finset.mem_union.1 (expand_subset_union fg adj _ hx) with h | h
      · exact ih h
      · exact Finset.mem_insert_of_mem h

lemma subset_iterate_expand (fg : Finset Pix) (adj : Pix → Pix → Bool) (s : Finset Pix) (n : ℕ) :
    s ⊆ (expand fg adj)^[n] s := by
  induction n with
  | zero => simp
  | succ n ih =>
      rw [Function.iterate_succ_apply']
      exact ih.trans (subset_expand fg adj _)

lemma iterate_expand_mono (fg : Finset Pix) (adj : Pix → Pix → Bool) (s : Finset Pix)
    {k : ℕ} (m : ℕ) (h : (expand fg adj)^[k] s = (expand fg adj)^[k + 1] s) :
    (expand fg adj)^[k + m] s = (expand fg adj)^[k] s := by
  induction m with
  | zero => rfl
  | succ m ih =>
      have hidx : k + (m + 1) = (k + m) + 1 := by omega
      rw [hidx, Function.iterate_succ_apply', ih]
      exact (Function.iterate_succ_apply' (expand fg adj) k s).symm.trans h.symm

lemma card_le_iterate_expand (fg : Finset Pix) (adj : Pix → Pix → Bool) (s : Finset Pix)
    (n : ℕ) (h : ∀ k < n, (expand fg adj)^[k] s ≠ (expand fg adj)^[k + 1] s) :
    n + s.card ≤ ((expand fg adj)^[n] s).card := by
  induction n with
  | zero => simp
  | succ n ih =>
      have hsub : (expand fg adj)^[n] s ⊆ (expand fg adj)^[n + 1] s := by
        rw [Function.iterate_succ_apply']
        exact subset_expand fg adj _
      have hne : (expand fg adj)^[n] s ≠ (expand fg adj)^[n + 1] s := h n (by omega)
      have hlt : ((expand fg adj)^[n] s).card < ((expand fg adj)^[n + 1] s).card :=
        Finset.card_lt_card (HasSubset.Subset.ssubset_of_ne hsub hne)
      have := ih (fun k hk => h k (by omega))
      omega

lemma expand_iterate_fixed (fg : Finset Pix) (adj : Pix → Pix → Bool) (p : Pix) :
    expand fg adj ((expand fg adj)^[fg.card] {p}) = (expand fg adj)^[fg.card] {p} := by
  by_contra hne
  have hstep : ∀ k < fg.card + 1,
      (expand fg adj)^[k] {p} ≠ (expand fg adj)^[k + 1] {p} := by
    intro k hk heq
    have h1 : (expand fg adj)^[k + (fg.card - k)] {p} = (expand fg adj)^[k] {p} :=
      iterate_expand_mono fg adj _ _ heq
    have h2 : (expand fg adj)^[k + (fg.card + 1 - k)] {p} = (expand fg adj)^[k] {p} :=
      iterate_expand_mono fg adj _ _ heq
    have hk1 : k + (fg.card - k) = fg.card := by omega
    have hk2 : k + (fg.card + 1 - k) = fg.card + 1 := by omega
    rw [hk1] at h1
    rw [hk2] at h2
    exact hne ((Function.iterate_succ_apply' (expand fg adj) fg.card {p}).symm.trans
      (h2.trans h1.symm))
  have hcard := card_le_iterate_expand fg adj {p} (fg.card + 1) hstep
  have hsub := iterate_expand_subset fg adj p (fg.card + 1)
  have hle : ((expand fg adj)^[fg.card + 1] {p}).card ≤ (insert p fg).card :=
    Finset.card_le_card hsub
  have hins : (insert p fg).card ≤ fg.card + 1 := Finset.card_insert_le p fg
  simp only [Finset.card_singleton] at hcard
  omega

lemma mem_comp_self {fg : Finset Pix} {adj : Pix → Pix → Bool} {p : Pix} (hp : p ∈ fg) :
    p ∈ comp fg adj p := by
  unfold comp
  rw [if_pos hp]
  exact subset_iterate_expand fg adj {p} fg.card (Finset.mem_singleton_self p)

lemma comp_subset_fg {fg : Finset Pix} {adj : Pix → Pix → Bool} {p : Pix} (hp : p ∈ fg) :
    comp fg adj p ⊆ fg := by
  unfold comp
  rw [if_pos hp]
  have := iterate_expand_subset fg adj p fg.card
  rwa [Finset.insert_eq_self.2 hp] at this

lemma comp_closed {fg : Finset Pix} {adj : Pix → Pix → Bool} {p b c : Pix} (hp : p ∈ fg)
    (hb : b ∈ comp fg adj p) (hc : c ∈ fg) (hadj : adj b c = true) :
    c ∈ comp fg adj p := by
  unfold comp at hb ⊢
  rw [if_pos hp] at hb ⊢
  rw [← expand_iterate_fixed fg adj p]
  exact Finset.mem_union.2 (Or.inr (Finset.mem_filter.2 ⟨hc, ⟨b, hb, hadj⟩⟩))

lemma mem_comp_iff_rtg {fg : Finset Pix} {adj : Pix → Pix → Bool} {p q : Pix} (hp : p ∈ fg) :
    q ∈ comp fg adj p ↔ Relation.ReflTransGen (Rel fg adj) p q := by
  constructor
  · intro hq
    unfold comp at hq
    rw [if_pos hp] at hq
    have : ∀ n x, x ∈ (expand fg adj)^[n] ({p} : Finset Pix) →
        Relation.ReflTransGen (Rel fg adj) p x := by
      intro n
      induction n with
      | zero =>
          intro x hx
          simp only [Function.iterate_zero_apply, Finset.mem_singleton] at hx
          rw [hx]
      | succ n ih =>
          intro x hx
          rw [Function.iterate_succ_apply'] at hx
          rcases Finset.mem_union.1 hx with h | h
          · exact ih x h
          · rcases Finset.mem_filter.1 h with ⟨hxfg, b, hb, hadj⟩
            exact (ih b hb).tail ⟨hxfg, hadj⟩
    exact this fg.card q hq
  · intro h
    induction h with
    | refl => exact mem_comp_self hp
    | tail _ hrel ih => exact comp_closed hp ih hrel.1 hrel.2

lemma rtg_mem_fg {fg : Finset Pix} {adj : Pix → Pix → Bool} {p q : Pix} (hp : p ∈ fg)
    (h : Relation.ReflTransGen (Rel fg adj) p q) : q ∈ fg := by
  induction h with
  | refl => exact hp
  | tail _ hrel _ => exact hrel.1

lemma rtg_symm {fg : Finset Pix} {adj : Pix → Pix → Bool} {p q : Pix}
    (hsym : ∀ a b, adj a b = adj b a) (hp : p ∈ fg)
    (h : Relation.ReflTransGen (Rel fg adj) p q) :
    Relation.ReflTransGen (Rel fg adj) q p := by
  induction h with
  | refl => exact Relation.ReflTransGen.refl
  | tail hpb hrel ih =>
      have hb := rtg_mem_fg hp hpb
      refine Relation.ReflTransGen.head ?_ ih
      refine ⟨hb, ?_⟩
      rw [← hsym]
      exact hrel.2

lemma comp_eq_of_mem {fg : Finset Pix} {adj : Pix → Pix → Bool} {p q : Pix}
    (hsym : ∀ a b, adj a b = adj b a) (hp : p ∈ fg) (hq : q ∈ comp fg adj p) :
    comp fg adj q = comp fg adj p := by
  have hqfg : q ∈ fg := comp_subset_fg hp hq
  have hpq : Relation.ReflTransGen (Rel fg adj) p q := (mem_comp_iff_rtg hp).1 hq
  have hqp : Relation.ReflTransGen (Rel fg adj) q p := rtg_symm hsym hp hpq
  ext x
  rw [mem_comp_iff_rtg hp, mem_comp_iff_rtg hqfg]
  exact ⟨fun h => hpq.trans h, fun h => hqp.trans h⟩

lemma comp_upgrade {fgA fgB : Finset Pix} {adjA adjB : Pix → Pix → Bool} {p : Pix}
    (hImp : ∀ a b, adjA a b = true → adjB a b = true)
    (hsub : comp fgA adjA p ⊆ fgB) (hp : p ∈ fgA) :
    comp fgA adjA p ⊆ comp fgB adjB p := by
  intro x hx
  have hpfgB : p ∈ fgB := hsub (mem_comp_self hp)
  rw [mem_comp_iff_rtg hpfgB]
  have hrtg : Relation.ReflTransGen (Rel fgA adjA) p x := (mem_comp_iff_rtg hp).1 hx
  clear hx
  induction hrtg with
  | refl => exact Relation.ReflTransGen.refl
  | tail hpb hrel ih =>
      rename_i b c
      have hcA : c ∈ comp fgA adjA p := (mem_comp_iff_rtg hp).2 (hpb.tail hrel)
      exact ih.tail ⟨hsub hcA, hImp b c hrel.2⟩

lemma adj4_imp_adj8 (a b : Pix) (h : adj4 a b = true) : adj8 a b = true := by
  unfold adj4 at h
  unfold adj8 natGap
  rw [decide_eq_true_iff] at h
  rw [decide_eq_true_iff]
  rcases h with ⟨h1, h2⟩ | ⟨h1, h2⟩
  · refine ⟨?_, by omega, by omega⟩
    intro he
    rw [he] at h2
    omega
  · refine ⟨?_, by omega, by omega⟩
    intro he
    rw [he] at h2
    omega

lemma adj4_symm (a b : Pix) : adj4 a b = adj4 b a := by
  unfold adj4
  rw [decide_eq_decide]
  constructor <;> rintro (⟨h1, h2⟩ | ⟨h1, h2⟩) <;>
    first
      | exact Or.inl ⟨h1.symm, h2.symm⟩
      | exact Or.inr ⟨h1.symm, h2.symm⟩

lemma adj8_symm (a b : Pix) : adj8 a b = adj8 b a := by
  unfold adj8 natGap
  rw [decide_eq_decide]
  constructor <;> rintro ⟨h1, h2, h3⟩ <;>
    exact ⟨fun he => h1 he.symm, by omega, by omega⟩

/-- A 2-D image with `h` rows and `w` columns of `α`-valued samples.
Pixel values outside the bounds are irrelevant. -/
structure Img (α : Type) where
  h : ℕ
  w : ℕ
  pix : ℕ → ℕ → α

/-- View an integer-sampled image as a rational-sampled image. -/
def imgToRat (g : Img ℕ) : Img ℚ := ⟨g.h, g.w, fun i j => (g.pix i j : ℚ)⟩

/-- `morphology.disk(radius)`: offsets `(a, b)` with `a² + b² ≤ radius²`. -/
def diskOffsets (radius : ℕ) : List (ℤ × ℤ) :=
  (((List.range (2 * radius + 1)).map (fun a =>
      (List.range (2 * radius + 1)).map (fun b =>
        ((a : ℤ) - radius, (b : ℤ) - radius)))).flatten).filter
    (fun d => d.1 * d.1 + d.2 * d.2 ≤ (radius : ℤ) * radius)

/-- Read a mask at a signed coordinate, with a fixed value outside the
image bounds. -/
def maskAtZ (h w : ℕ) (m : ℕ → ℕ → Bool) (i j : ℤ) (outside : Bool) : Bool :=
  if 0 ≤ i ∧ i < (h : ℤ) ∧ 0 ≤ j ∧ j < (w : ℤ) then m i.toNat j.toNat else outside

/-- Binary dilation by a structuring element; out-of-bounds samples count as
background, matching the scikit-image padding convention. -/
def dilateB (h w : ℕ) (m : ℕ → ℕ → Bool) (se : List (ℤ × ℤ)) : ℕ → ℕ → Bool :=
  fun i j => se.any (fun d => maskAtZ h w m ((i : ℤ) + d.1) ((j : ℤ) + d.2) false)

/-- Binary erosion by a structuring element; out-of-bounds samples count as
foreground, matching the scikit-image padding convention. -/
def erodeB (h w : ℕ) (m : ℕ → ℕ → Bool) (se : List (ℤ × ℤ)) : ℕ → ℕ → Bool :=
  fun i j => se.all (fun d => maskAtZ h w m ((i : ℤ) + d.1) ((j : ℤ) + d.2) true)

/-- `morphology.binary_closing`: dilation followed by erosion. -/
def binary_closing (h w : ℕ) (m : ℕ → ℕ → Bool) (se : List (ℤ × ℤ)) : ℕ → ℕ → Bool :=
  erodeB h w (dilateB h w m se) se

/-- `morphology.binary_opening`: erosion followed by dilation. -/
def binary_opening (h w : ℕ) (m : ℕ → ℕ → Bool) (se : List (ℤ × ℤ)) : ℕ → ℕ → Bool :=
  dilateB h w (erodeB h w m se) se

/-- `morphology.remove_small_objects(mask, min_size)`: keep a foreground pixel
iff its 4-connected component (the default `connectivity=1`) has at least
`min_size` pixels. -/
def remove_small_objects (h w : ℕ) (m : ℕ → ℕ → Bool) (min_size : ℕ) : ℕ → ℕ → Bool :=
  fun i j => m i j && decide (min_size ≤ (comp (fgSet h w m) adj4 (i, j)).card)

/-- Whether a pixel lies on the image border. -/
def isBorderB (h w : ℕ) (p : Pix) : Bool :=
  p.1 = 0 ∨ p.2 = 0 ∨ p.1 + 1 = h ∨ p.2 + 1 = w

/-- `segmentation.clear_border(mask)`: drop every connected component
(8-connectivity, the labelling default) containing a border pixel. -/
def clear_border (h w : ℕ) (m : ℕ → ℕ → Bool) : ℕ → ℕ → Bool :=
  fun i j => m i j &&
    decide ((comp (fgSet h w m) adj8 (i, j)).filter (fun q => isBorderB h w q = true) = ∅)

/-- The pixel coordinates of row `i` with column index below `w`,
in ascending column order. -/
def rowPixels (i : ℕ) : ℕ → List Pix
  | 0 => []
  | j + 1 => rowPixels i j ++ [(i, j)]

/-- All in-bounds pixel coordinates in raster (row-major) order. -/
def rasterAux (w : ℕ) : ℕ → List Pix
  | 0 => []
  | i + 1 => rasterAux w i ++ rowPixels i w

/-- All pixel coordinates of an `h × w` grid in raster order. -/
def rasterPixels (h w : ℕ) : List Pix := rasterAux w h

lemma mem_rowPixels {i a b w : ℕ} : (a, b) ∈ rowPixels i w ↔ a = i ∧ b < w := by
  induction w with
  | zero => simp [rowPixels]
  | succ w ih =>
      unfold rowPixels
      rw [List.mem_append]
      simp only [List.mem_singleton, Prod.mk.injEq, ih]
      omega

lemma mem_rasterPixels {a b h w : ℕ} : (a, b) ∈ rasterPixels h w ↔ a < h ∧ b < w := by
  unfold rasterPixels
  induction h with
  | zero => simp [rasterAux]
  | succ h ih =>
      unfold rasterAux
      rw [List.mem_append]
      simp only [ih, mem_rowPixels]
      omega

lemma fgSet_mem {h w : ℕ} {m : ℕ → ℕ → Bool} {p : Pix} :
    p ∈ fgSet h w m ↔ p.1 < h ∧ p.2 < w ∧ m p.1 p.2 = true := by
  unfold fgSet grid
  rw [Finset.mem_filter, Finset.mem_product, Finset.mem_range, Finset.mem_range]
  tauto

/-- One lap of `measure.label` plus collection: scan pixels in raster order
and record the connected component of every foreground pixel not already
covered by an earlier component. -/
def componentsAux (fg : Finset Pix) (adj : Pix → Pix → Bool) :
    List Pix → List (Finset Pix) → List (Finset Pix)
  | [], acc => acc
  | p :: ps, acc =>
      if p ∈ fg ∧ ∀ c ∈ acc, p ∉ c then
        componentsAux fg adj ps (acc ++ [comp fg adj p])
      else
        componentsAux fg adj ps acc

/-- The connected components of a mask (8-connectivity, the `measure.label`
default), in raster order of their first pixel — the order in which
`measure.label` assigns the labels `1..N`. -/
def components (h w : ℕ) (m : ℕ → ℕ → Bool) : List (Finset Pix) :=
  componentsAux (fgSet h w m) adj8 (rasterPixels h w) []

lemma componentsAux_mem_of_mem_acc {fg : Finset Pix} {adj : Pix → Pix → Bool}
    {l : List Pix} {acc : List (Finset Pix)} {c : Finset Pix} (hc : c ∈ acc) :
    c ∈ componentsAux fg adj l acc := by
  induction l generalizing acc with
  | nil => exact hc
  | cons p ps ih =>
      unfold componentsAux
      split
      · exact ih (List.mem_append.2 (Or.inl hc))
      · exact ih hc

lemma componentsAux_isComp {fg : Finset Pix} {adj : Pix → Pix → Bool}
    {l : List Pix} {acc : List (Finset Pix)}
    (hacc : ∀ c ∈ acc, ∃ p ∈ fg, c = comp fg adj p) :
    ∀ c ∈ componentsAux fg adj l acc, ∃ p ∈ fg, c = comp fg adj p := by
  induction l generalizing acc with
  | nil => exact hacc
  | cons p ps ih =>
      unfold componentsAux
      split
      · rename_i hcond
        refine ih ?_
        intro c hc
        rcases List.mem_append.1 hc with h | h
        · exact hacc c h
        · rw [List.mem_singleton] at h
          exact ⟨p, hcond.1, h⟩
      · exact ih hacc

lemma componentsAux_cover {fg : Finset Pix} {adj : Pix → Pix → Bool}
    {l : List Pix} {acc : List (Finset Pix)} {q : Pix} (hq : q ∈ fg) (hl : q ∈ l) :
    ∃ c ∈ componentsAux fg adj l acc, q ∈ c := by
  induction l generalizing acc with
  | nil => cases hl
  | cons p ps ih =>
      rcases List.mem_cons.1 hl with he | hm
      · subst he
        unfold componentsAux
        split
        · exact ⟨comp fg adj q, componentsAux_mem_of_mem_acc
            (List.mem_append.2 (Or.inr (List.mem_singleton.2 rfl))), mem_comp_self hq⟩
        · rename_i hcond
          push_neg at hcond
          rcases hcond hq with ⟨c, hc, hqc⟩
          exact ⟨c, componentsAux_mem_of_mem_acc hc, hqc⟩
      · unfold componentsAux
        split
        · exact ih hm
        · exact ih hm

lemma componentsAux_pairwise {fg : Finset Pix} {adj : Pix → Pix → Bool}
    (hsym : ∀ a b, adj a b = adj b a)
    {l : List Pix} {acc : List (Finset Pix)}
    (hacc : ∀ c ∈ acc, ∃ p ∈ fg, c = comp fg adj p)
    (hpw : acc.Pairwise (fun a b => a ∩ b = ∅)) :
    (componentsAux fg adj l acc).Pairwise (fun a b => a ∩ b = ∅) := by
  induction l generalizing acc with
  | nil => exact hpw
  | cons p ps ih =>
      unfold componentsAux
      split
      · rename_i hcond
        refine ih ?_ ?_
        · intro c hc
          rcases List.mem_append.1 hc with h | h
          · exact hacc c h
          · rw [List.mem_singleton] at h
            exact ⟨p, hcond.1, h⟩
        · rw [List.pairwise_append]
          refine ⟨hpw, List.pairwise_singleton _ _, ?_⟩
          intro a ha b hb
          rw [List.mem_singleton] at hb
          subst hb
          rcases hacc a ha with ⟨r, hr, hra⟩
          rw [Finset.eq_empty_iff_forall_not_mem]
          intro x hx
          rcases Finset.mem_inter.1 hx with ⟨hxa, hxc⟩
          have h1 : comp fg adj x = comp fg adj r := by
            rw [hra] at hxa
            exact comp_eq_of_mem hsym hr hxa
          have h2 : comp fg adj x = comp fg adj p :=
            comp_eq_of_mem hsym hcond.1 hxc
          have hp_in : p ∈ comp fg adj p := mem_comp_self hcond.1
          rw [← h2, h1, ← hra] at hp_in
          exact hcond.2 a ha hp_in
      · exact ih hacc hpw

/-- The measurement record produced for one labelled region
(`measurements.append({...})` in `segment_and_measure_spots`). -/
structure SpotMeasurement where
  label : ℕ
  area_pixels : ℕ
  mean_intensity : ℚ
  integrated_intensity : ℚ
deriving DecidableEq, Repr

/-- `regionprops` data for one region: `area` is the pixel count,
`mean_intensity` the mean of the intensity image over the region, and the
source computes `integrated_intensity` as `p.mean_intensity * p.area`. -/
def measureRegion (pix : ℕ → ℕ → ℚ) (lab : ℕ) (r : Finset Pix) : SpotMeasurement :=
  let area := r.card
  let mean := (r.sum (fun p => pix p.1 p.2)) / (area : ℚ)
  { label := lab, area_pixels := area, mean_intensity := mean,
    integrated_intensity := mean * (area : ℚ) }

/-- The thresholding step `mask = image > thresh_val` of
`segment_and_measure_spots`.  `thresh_val` stands for the result of the
external library call `filters.threshold_local(image, 201, method="gaussian")`
(a Gaussian-weighted local mean computed in floating point); it is taken
here as an arbitrary per-pixel threshold surface, so every theorem below
holds for whatever surface the library computes. -/
def segThreshMask (image : Img ℚ) (thresh_val : ℕ → ℕ → ℚ) : ℕ → ℕ → Bool :=
  fun i j => decide (thresh_val i j < image.pix i j)

/-- The morphological cleanup of `segment_and_measure_spots`:
closing with `disk(closing_radius)` then opening with `disk(opening_radius)`. -/
def segMorphMask (image : Img ℚ) (closing_radius opening_radius : ℕ)
    (thresh_val : ℕ → ℕ → ℚ) : ℕ → ℕ → Bool :=
  binary_opening image.h image.w
    (binary_closing image.h image.w (segThreshMask image thresh_val)
      (diskOffsets closing_radius))
    (diskOffsets opening_radius)

/-- The cleaned mask of `segment_and_measure_spots`: small-object removal,
then border clearing, in exactly the source order. -/
def segCleanMask (image : Img ℚ) (min_area closing_radius opening_radius : ℕ)
    (thresh_val : ℕ → ℕ → ℚ) : ℕ → ℕ → Bool :=
  clear_border image.h image.w
    (remove_small_objects image.h image.w
      (segMorphMask image closing_radius opening_radius thresh_val) min_area)

/-- `segment_and_measure_spots(image, min_area, closing_radius, opening_radius)`:
threshold, morphological cleanup, small-object removal, border clearing,
labelling, and per-region measurement.  Returns the measurement list and
the final binary mask. -/
def segment_and_measure_spots (image : Img ℚ)
    (min_area closing_radius opening_radius : ℕ) (thresh_val : ℕ → ℕ → ℚ) :
    List SpotMeasurement × (ℕ → ℕ → Bool) :=
  let mask := segCleanMask image min_area closing_radius opening_radius thresh_val
  let regs := components image.h image.w mask
  (regs.enum.map (fun kr => measureRegion image.pix (kr.1 + 1) kr.2), mask)

lemma fgSet_remove_small (h w : ℕ) (m : ℕ → ℕ → Bool) (k : ℕ) :
    fgSet h w (remove_small_objects h w m k)
      = (fgSet h w m).filter (fun p => k ≤ (comp (fgSet h w m) adj4 p).card) := by
  ext p
  rcases p with ⟨a, b⟩
  rw [fgSet_mem, Finset.mem_filter, fgSet_mem]
  unfold remove_small_objects
  rw [Bool.and_eq_true, decide_eq_true_iff]
  tauto

lemma fgSet_clear_border (h w : ℕ) (m : ℕ → ℕ → Bool) :
    fgSet h w (clear_border h w m)
      = (fgSet h w m).filter
          (fun p => (comp (fgSet h w m) adj8 p).filter (fun q => isBorderB h w q = true) = ∅) := by
  ext p
  rcases p with ⟨a, b⟩
  rw [fgSet_mem, Finset.mem_filter, fgSet_mem]
  unfold clear_border
  rw [Bool.and_eq_true, decide_eq_true_iff]
  tauto

/-- Core invariant of the cleaned mask: every 8-connected component of
`clear_border (remove_small_objects m2 k)` has at least `k` pixels and
contains no border pixel. -/
lemma components_clean_mask {h w : ℕ} {m2 : ℕ → ℕ → Bool} {k : ℕ} {r : Finset Pix}
    (hr : r ∈ components h w (clear_border h w (remove_small_objects h w m2 k))) :
    k ≤ r.card ∧ ∀ p ∈ r, isBorderB h w p = false := by
  set m3 := remove_small_objects h w m2 k with hm3
  set fg2 := fgSet h w m2 with hfg2
  set fg3 := fgSet h w m3 with hfg3
  set fg4 := fgSet h w (clear_border h w m3) with hfg4
  have hfg3e : fg3 = fg2.filter (fun p => k ≤ (comp fg2 adj4 p).card) := by
    rw [hfg3, hm3, hfg2]
    exact fgSet_remove_small h w m2 k
  have hfg4e : fg4 = fg3.filter
      (fun p => (comp fg3 adj8 p).filter (fun q => isBorderB h w q = true) = ∅) := by
    rw [hfg4, hfg3]
    exact fgSet_clear_border h w m3
  rcases componentsAux_isComp (fun c hc => absurd hc (List.not_mem_nil c)) r hr
    with ⟨q, hq4, hreq⟩
  rw [← hfg4] at hq4
  rw [← hfg4] at hreq
  have hq4f := Finset.mem_filter.1 (hfg4e ▸ hq4)
  have hq3 : q ∈ fg3 := hq4f.1
  have hqborder : (comp fg3 adj8 q).filter (fun x => isBorderB h w x = true) = ∅ := hq4f.2
  have hq3f := Finset.mem_filter.1 (hfg3e ▸ hq3)
  have hq2 : q ∈ fg2 := hq3f.1
  have hqcard : k ≤ (comp fg2 adj4 q).card := hq3f.2
  -- the 4-component of q in the morphology mask survives both filters whole
  have hc3 : comp fg2 adj4 q ⊆ fg3 := by
    intro x hx
    have hx2 : x ∈ fg2 := comp_subset_fg hq2 hx
    have hxe : comp fg2 adj4 x = comp fg2 adj4 q := comp_eq_of_mem adj4_symm hq2 hx
    rw [hfg3e]
    exact Finset.mem_filter.2 ⟨hx2, by rw [hxe]; exact hqcard⟩
  have hc8 : comp fg2 adj4 q ⊆ comp fg3 adj8 q := comp_upgrade adj4_imp_adj8 hc3 hq2
  have hc4 : comp fg2 adj4 q ⊆ fg4 := by
    intro x hx
    have hx8 : x ∈ comp fg3 adj8 q := hc8 hx
    have hxe : comp fg3 adj8 x = comp fg3 adj8 q := comp_eq_of_mem adj8_symm hq3 hx8
    rw [hfg4e]
    exact Finset.mem_filter.2 ⟨hc3 hx, by rw [hxe]; exact hqborder⟩
  have hsub : comp fg2 adj4 q ⊆ r := by
    rw [hreq]
    exact comp_upgrade adj4_imp_adj8 hc4 hq2
  constructor
  · exact hqcard.trans (Finset.card_le_card hsub)
  · intro p hp
    have hp4 : p ∈ fg4 := by
      rw [hreq] at hp
      exact comp_subset_fg hq4 hp
    have hp4f := Finset.mem_filter.1 (hfg4e ▸ hp4)
    have hpclean : (comp fg3 adj8 p).filter (fun x => isBorderB h w x = true) = ∅ := hp4f.2
    have hp3 : p ∈ fg3 := hp4f.1
    by_contra hb
    rw [Bool.not_eq_false] at hb
    have : p ∈ (comp fg3 adj8 p).filter (fun x => isBorderB h w x = true) :=
      Finset.mem_filter.2 ⟨mem_comp_self hp3, hb⟩
    rw [hpclean] at this
    cases this

/-- C2 — For every segmentation run (any 2-D image, any parameters, any local
threshold surface): no returned spot has pixel area below `min_area`, no
foreground pixel of the returned mask lies on the image border, and the
returned mask is literally border clearing applied after small-object
removal applied after the morphological stage — the source order. -/
theorem spots_min_area_and_border (image : Img ℚ)
    (min_area closing_radius opening_radius : ℕ) (thresh_val : ℕ → ℕ → ℚ) :
    ((segment_and_measure_spots image min_area closing_radius opening_radius thresh_val).1).all
        (fun s => decide (min_area ≤ s.area_pixels)) = true
    ∧ (components image.h image.w
        ((segment_and_measure_spots image min_area closing_radius opening_radius thresh_val).2)).all
        (fun r => decide (∀ p ∈ r, isBorderB image.h image.w p = false)) = true
    ∧ (fgSet image.h image.w
        ((segment_and_measure_spots image min_area closing_radius opening_radius thresh_val).2)).filter
        (fun p => isBorderB image.h image.w p = true) = ∅
    ∧ (segment_and_measure_spots image min_area closing_radius opening_radius thresh_val).2
        = clear_border image.h image.w
            (remove_small_objects image.h image.w
              (segMorphMask image closing_radius opening_radius thresh_val) min_area) := by
  refine ⟨?_, ?_, ?_, rfl⟩
  · rw [List.all_eq_true]
    intro s hs
    rcases List.mem_map.1 hs with ⟨kr, hkr, hseq⟩
    have hr : kr.2 ∈ components image.h image.w
        (segCleanMask image min_area closing_radius opening_radius thresh_val) := by
      have := List.enum_map_snd (components image.h image.w
        (segCleanMask image min_area closing_radius opening_radius thresh_val))
      rw [← this]
      exact List.mem_map.2 ⟨kr, hkr, rfl⟩
    have hcard := (@components_clean_mask image.h image.w (segMorphMask image closing_radius
      opening_radius thresh_val) min_area kr.2 hr).1
    rw [decide_eq_true_iff, ← hseq]
    exact hcard
  · rw [List.all_eq_true]
    intro r hr
    rw [decide_eq_true_iff]
    exact (@components_clean_mask image.h image.w (segMorphMask image closing_radius
      opening_radius thresh_val) min_area r hr).2
  · rw [Finset.eq_empty_iff_forall_not_mem]
    intro p hp
    rcases Finset.mem_filter.1 hp with ⟨hpfg, hpb⟩
    have hpr : p ∈ rasterPixels image.h image.w := by
      rcases p with ⟨a, b⟩
      rcases fgSet_mem.1 hpfg with ⟨ha, hb, _⟩
      exact mem_rasterPixels.2 ⟨ha, hb⟩
    have hcov : ∃ c ∈ components image.h image.w
        (segCleanMask image min_area closing_radius opening_radius thresh_val), p ∈ c :=
      componentsAux_cover hpfg hpr
    rcases hcov with ⟨c, hc, hpc⟩
    have := (@components_clean_mask image.h image.w (segMorphMask image closing_radius
      opening_radius thresh_val) min_area c hc).2 p hpc
    rw [this] at hpb
    cases hpb

lemma enumFrom_map_label (pix : ℕ → ℕ → ℚ) :
    ∀ (l : List (Finset Pix)) (n : ℕ),
      (List.enumFrom n l).map (fun kr => (measureRegion pix (kr.1 + 1) kr.2).label)
        = List.range' (n + 1) l.length := by
  intro l
  induction l with
  | nil => intro n; rfl
  | cons a l ih =>
      intro n
      show (n + 1) :: (List.enumFrom (n + 1) l).map
          (fun kr => (measureRegion pix (kr.1 + 1) kr.2).label)
        = List.range' (n + 1) (l.length + 1)
      rw [ih (n + 1), List.range'_succ]

/-- C10 — For every segmentation run: the measurement list has exactly one
entry per 8-connected foreground component of the returned mask (every list
entry is a component, every foreground pixel is covered, distinct entries
are disjoint), and the labels are exactly the consecutive integers
`1..N` in increasing order, where `N` is the number of components. -/
theorem spot_labels_consecutive_components (image : Img ℚ)
    (min_area closing_radius opening_radius : ℕ) (thresh_val : ℕ → ℕ → ℚ) :
    ((segment_and_measure_spots image min_area closing_radius opening_radius thresh_val).1).map
        SpotMeasurement.label
      = List.range' 1 (components image.h image.w
          ((segment_and_measure_spots image min_area closing_radius opening_radius thresh_val).2)).length
    ∧ ((segment_and_measure_spots image min_area closing_radius opening_radius thresh_val).1).length
      = (components image.h image.w
          ((segment_and_measure_spots image min_area closing_radius opening_radius thresh_val).2)).length
    ∧ (components image.h image.w
          ((segment_and_measure_spots image min_area closing_radius opening_radius thresh_val).2)).all
        (fun c => decide (∃ p ∈ fgSet image.h image.w
          ((segment_and_measure_spots image min_area closing_radius opening_radius thresh_val).2),
          c = comp (fgSet image.h image.w
            ((segment_and_measure_spots image min_area closing_radius opening_radius thresh_val).2))
            adj8 p)) = true
    ∧ (fgSet image.h image.w
          ((segment_and_measure_spots image min_area closing_radius opening_radius thresh_val).2)).filter
        (fun p => ¬ ∃ c ∈ components image.h image.w
          ((segment_and_measure_spots image min_area closing_radius opening_radius thresh_val).2),
          p ∈ c) = ∅
    ∧ decide ((components image.h image.w
          ((segment_and_measure_spots image min_area closing_radius opening_radius thresh_val).2)).Pairwise
        (fun a b => a ∩ b = ∅)) = true := by
  refine ⟨?_, ?_, ?_, ?_, ?_⟩
  · show ((components image.h image.w
        (segCleanMask image min_area closing_radius opening_radius thresh_val)).enum.map
          (fun kr => measureRegion image.pix (kr.1 + 1) kr.2)).map SpotMeasurement.label
      = List.range' 1 (components image.h image.w
          (segCleanMask image min_area closing_radius opening_radius thresh_val)).length
    rw [List.map_map]
    exact enumFrom_map_label image.pix _ 0
  · show ((components image.h image.w
        (segCleanMask image min_area closing_radius opening_radius thresh_val)).enum.map
          (fun kr => measureRegion image.pix (kr.1 + 1) kr.2)).length
      = (components image.h image.w
          (segCleanMask image min_area closing_radius opening_radius thresh_val)).length
    rw [List.length_map, List.enum_length]
  · rw [List.all_eq_true]
    intro c hc
    rw [decide_eq_true_iff]
    exact componentsAux_isComp (fun c hc => absurd hc (List.not_mem_nil c)) c hc
  · rw [Finset.eq_empty_iff_forall_not_mem]
    intro p hp
    rcases Finset.mem_filter.1 hp with ⟨hpfg, hnone⟩
    have hpr : p ∈ rasterPixels image.h image.w := by
      rcases p with ⟨a, b⟩
      rcases fgSet_mem.1 hpfg with ⟨ha, hb, _⟩
      exact mem_rasterPixels.2 ⟨ha, hb⟩
    exact hnone (componentsAux_cover hpfg hpr)
  · rw [decide_eq_true_iff]
    exact componentsAux_pairwise adj8_symm
      (fun c hc => absurd hc (List.not_mem_nil c)) List.Pairwise.nil

/-- C5 — Every returned `SpotMeasurement` satisfies
`integrated_intensity = mean_intensity × area_pixels` (exactly, in the
rational idealisation of floats), the source computing the product at
`p.mean_intensity * p.area`; moreover every returned spot has positive
pixel area, so the mean is a true mean over a nonempty region. -/
theorem spot_integrated_eq_mean_mul_area (image : Img ℚ)
    (min_area closing_radius opening_radius : ℕ) (thresh_val : ℕ → ℕ → ℚ) :
    ((segment_and_measure_spots image min_area closing_radius opening_radius thresh_val).1).all
        (fun s => decide (s.integrated_intensity
          = s.mean_intensity * (s.area_pixels : ℚ) ∧ 0 < s.area_pixels)) = true := by
  rw [List.all_eq_true]
  intro s hs
  rcases List.mem_map.1 hs with ⟨kr, hkr, hseq⟩
  rw [decide_eq_true_iff, ← hseq]
  refine ⟨rfl, ?_⟩
  have hr : kr.2 ∈ components image.h image.w
      (segCleanMask image min_area closing_radius opening_radius thresh_val) := by
    have := List.enum_map_snd (components image.h image.w
      (segCleanMask image min_area closing_radius opening_radius thresh_val))
    rw [← this]
    exact List.mem_map.2 ⟨kr, hkr, rfl⟩
  rcases componentsAux_isComp (fun c hc => absurd hc (List.not_mem_nil c)) kr.2 hr
    with ⟨q, hq, hceq⟩
  have : q ∈ kr.2 := by
    rw [hceq]
    exact mem_comp_self hq
  exact Finset.card_pos.2 ⟨q, this⟩

/-- Float division as in `(img - img.min()) / (img.max() - img.min())`,
with `none` marking the IEEE non-value produced when the denominator is
zero.  In `normalize_image` the numerator `v - min` is also zero whenever
`max - min` is zero (the image is constant), so `none` is exactly the
`0/0 = NaN` case there. -/
def fdiv (a b : ℚ) : Option ℚ := if b = 0 then none else some (a / b)

/-- The image samples in raster order, as `np.float32` idealised to `ℚ`. -/
def imgVals (g : Img ℚ) : List ℚ := (rasterPixels g.h g.w).map (fun p => g.pix p.1 p.2)

/-- `img.min()`.  NumPy raises on an empty array; the `0` default is
unreachable for actual images. -/
def imgMin (g : Img ℚ) : ℚ :=
  match imgVals g with
  | [] => 0
  | v :: vs => vs.foldl min v

/-- `img.max()`. -/
def imgMax (g : Img ℚ) : ℚ :=
  match imgVals g with
  | [] => 0
  | v :: vs => vs.foldl max v

/-- One sample of `(img - min) / (max - min) * 255`, NaN tracked. -/
def normVal (mn mx v : ℚ) : Option ℚ := (fdiv (v - mn) (mx - mn)).map (fun q => q * 255)

/-- `.astype(np.uint8)` of one normalised sample: C-cast truncation toward
zero for real values (all lie in `[0, 255]` here).  The NaN arising on a
constant image is cast to `ub`, the platform-dependent undefined result of
casting NaN to uint8 (`0` on common x86 setups). -/
def normCast (ub : ℕ) (x : Option ℚ) : ℕ :=
  match x with
  | none => ub
  | some q => Int.toNat ⌊q⌋

/-- `normalize_image(img)`: stretch the intensity range to 0..255. -/
def normalize_image (ub : ℕ) (g : Img ℚ) : Img ℕ :=
  ⟨g.h, g.w, fun i j => normCast ub (normVal (imgMin g) (imgMax g) (g.pix i j))⟩

set_option maxRecDepth 16000 in
/-- Sanity check that the embedded pipeline is executable and non-vacuous:
on a synthetic 5×5 image with a 3×3 bright block (intensity 20 over
background 0, constant threshold 10, `min_area = 2`, radii 0) the run
returns exactly one spot, with label 1 and nine pixels. -/
theorem pipeline_sanity_example :
    ((segment_and_measure_spots
        ⟨5, 5, fun i j => if 1 ≤ i ∧ i ≤ 3 ∧ 1 ≤ j ∧ j ≤ 3 then 20 else 0⟩
        2 0 0 (fun _x _y => 10)).1).map (fun s => (s.label, s.area_pixels))
      = [(1, 9)] := by
  decide

/-- C1 — On a constant image (`min == max`, here a 2×2 image of value 5)
`normalize_image` does hit a division by zero: every pixel evaluates the
`0/0` marked `none`, and the output pixel is the platform-dependent
NaN-to-uint8 cast `ub` — not a guaranteed all-zero image.  On a
non-degenerate image the linear rescale does send the minimum to 0 and the
maximum to 255 (shown on a 1×2 image with values 10 and 30). -/
theorem normalize_constant_image_divides_by_zero :
    normVal 5 5 5 = none
    ∧ (∀ ub i j : ℕ, (normalize_image ub ⟨2, 2, fun _a _b => (5 : ℚ)⟩).pix i j = ub)
    ∧ (∀ ub : ℕ,
        (normalize_image ub ⟨1, 2, fun _a b => if b = 0 then 10 else 30⟩).pix 0 0 = 0
        ∧ (normalize_image ub ⟨1, 2, fun _a b => if b = 0 then 10 else 30⟩).pix 0 1 = 255) := by
  refine ⟨by simp [normVal, fdiv], ?_, ?_⟩
  · intro ub i j
    have hmin : imgMin ⟨2, 2, fun _a _b => (5 : ℚ)⟩ = 5 := by
      show [(5 : ℚ), 5, 5].foldl min 5 = 5
      norm_num
    have hmax : imgMax ⟨2, 2, fun _a _b => (5 : ℚ)⟩ = 5 := by
      show [(5 : ℚ), 5, 5].foldl max 5 = 5
      norm_num
    show normCast ub (normVal (imgMin ⟨2, 2, fun _a _b => (5 : ℚ)⟩)
      (imgMax ⟨2, 2, fun _a _b => (5 : ℚ)⟩) 5) = ub
    rw [hmin, hmax]
    simp [normVal, fdiv, normCast]
  · intro ub
    have hmin : imgMin ⟨1, 2, fun _a b => if b = 0 then 10 else 30⟩ = 10 := by
      show [(30 : ℚ)].foldl min 10 = 10
      norm_num
    have hmax : imgMax ⟨1, 2, fun _a b => if b = 0 then 10 else 30⟩ = 30 := by
      show [(30 : ℚ)].foldl max 10 = 30
      norm_num
    constructor
    · show normCast ub (normVal (imgMin ⟨1, 2, fun _a b => if b = 0 then 10 else 30⟩)
        (imgMax ⟨1, 2, fun _a b => if b = 0 then 10 else 30⟩) 10) = 0
      rw [hmin, hmax]
      norm_num [normVal, fdiv, normCast]
    · show normCast ub (normVal (imgMin ⟨1, 2, fun _a b => if b = 0 then 10 else 30⟩)
        (imgMax ⟨1, 2, fun _a b => if b = 0 then 10 else 30⟩) 30) = 255
      rw [hmin, hmax]
      norm_num [normVal, fdiv, normCast]
      rfl

/-- The RGB branch of `load_tif`: `np.mean(img, axis=2).astype(np.uint8)`.
`np.mean` averages the three channel samples in floating point; the uint8
cast truncates the nonnegative mean toward zero and wraps modulo 256, which
for integer samples is exact natural floor division by 3. -/
def to_grayscale (d0 d1 : ℕ) (pix : ℕ → ℕ → ℕ → ℕ) : Img ℕ :=
  ⟨d0, d1, fun i j => ((pix i j 0 + pix i j 1 + pix i j 2) / 3) % 256⟩

/-- A decoded result of `tifffile.imread`, or `undecodable` when decoding
raises or yields no array.  Arrays of more than three dimensions do not
occur in this data set and are not modelled. -/
inductive RawBuffer where
  | undecodable : RawBuffer
  | buf2 (h w : ℕ) (pix : ℕ → ℕ → ℕ) : RawBuffer
  | buf3 (d0 d1 d2 : ℕ) (pix : ℕ → ℕ → ℕ → ℕ) : RawBuffer

/-- `load_tif(fname)`: decode, collapse to 2-D (RGB channel average when the
trailing dimension is 3, else the first slice along the leading axis), then
normalize.  Returns `none` — the caught-exception `None` of the source —
when the file cannot be decoded. -/
def load_tif (ub : ℕ) : RawBuffer → Option (Img ℕ)
  | RawBuffer.undecodable => none
  | RawBuffer.buf2 h w pix => some (normalize_image ub (imgToRat ⟨h, w, pix⟩))
  | RawBuffer.buf3 d0 d1 d2 pix =>
      if d2 = 3 then some (normalize_image ub (imgToRat (to_grayscale d0 d1 pix)))
      else some (normalize_image ub (imgToRat ⟨d1, d2, fun i j => pix 0 i j⟩))

/-- C6 counterexample — grayscale reduction truncates, it does not round to
nearest: an RGB pixel `(1, 1, 0)` has channel mean `2/3`, whose nearest
integer is `1`, yet the reduced pixel is `0`. -/
theorem grayscale_truncates_not_rounds :
    (to_grayscale 1 1 (fun _a _b c => if c = 2 then 0 else 1)).pix 0 0 = 0
    ∧ round ((1 + 1 + 0 : ℚ) / 3) = 1 ∧ ¬ (0 : ℕ) = 1 := by
  refine ⟨rfl, ?_, by norm_num⟩
  norm_num [round_eq]

/-- C6 amended — for every buffer whose trailing dimension is 3, `load_tif`
reduces to grayscale by per-pixel channel averaging followed by truncation
toward zero (floor of the nonnegative mean, wrapped modulo 256 by the uint8
cast), and the grayscale output is 2-D with exactly the first two input
dimensions. -/
theorem grayscale_shape_and_floor_mean (d0 d1 : ℕ) (pix : ℕ → ℕ → ℕ → ℕ) (ub : ℕ) :
    (to_grayscale d0 d1 pix).h = d0
    ∧ (to_grayscale d0 d1 pix).w = d1
    ∧ (∀ i j : ℕ, (to_grayscale d0 d1 pix).pix i j
        = ⌊((pix i j 0 : ℚ) + (pix i j 1 : ℚ) + (pix i j 2 : ℚ)) / 3⌋₊ % 256)
    ∧ load_tif ub (RawBuffer.buf3 d0 d1 3 pix)
        = some (normalize_image ub (imgToRat (to_grayscale d0 d1 pix))) := by
  refine ⟨rfl, rfl, ?_, by simp [load_tif]⟩
  intro i j
  show (pix i j 0 + pix i j 1 + pix i j 2) / 3 % 256 = _
  have hcast : ((pix i j 0 : ℚ) + (pix i j 1 : ℚ) + (pix i j 2 : ℚ))
      = ((pix i j 0 + pix i j 1 + pix i j 2 : ℕ) : ℚ) := by
    push_cast
    ring
  rw [hcast, show (3 : ℚ) = ((3 : ℕ) : ℚ) by norm_num, Nat.floor_div_nat,
    Nat.floor_natCast]

/-- ASCII lowercasing of one character, as `str.lower()` acts on the
characters appearing in these paths. -/
def toLowerChar (c : Char) : Char :=
  if 'A' ≤ c ∧ c ≤ 'Z' then Char.ofNat (c.toNat + 32) else c

/-- `s.lower()`. -/
def strLower (s : String) : String := String.mk (s.data.map toLowerChar)

/-- Python `sub in s` (contiguous substring test) on character lists. -/
def hasSub (sub : List Char) : List Char → Bool
  | [] => sub.isEmpty
  | c :: rest => sub.isPrefixOf (c :: rest) || hasSub sub rest

/-- Split a character list at every slash. -/
def splitSlash : List Char → List (List Char)
  | [] => [[]]
  | c :: rest =>
      if c = '/' then [] :: splitSlash rest
      else
        match splitSlash rest with
        | [] => [[c]]
        | g :: gs => (c :: g) :: gs

/-- `pathlib.Path(file_path).parts` for a relative POSIX path: the segments
between slashes, empty segments dropped. -/
def pathParts (fp : String) : List String :=
  ((splitSlash fp.data).map String.mk).filter (fun s => ¬ s = "")

/-- `Path(file_path).name`: the last path segment. -/
def pathName (fp : String) : String := (pathParts fp).getLastD ""

/-- `next((k for k in keys if any(k in s for s in parts)), "unknown")`:
the first keyword, in the fixed preference order of `keys`, occurring as a
substring of some path segment; `"unknown"` when none does. -/
def firstKeyword (keys : List String) (parts : List String) : String :=
  match keys.find? (fun k => parts.any (fun s => hasSub k.data s.data)) with
  | some k => k
  | none => "unknown"

def isDigitChar (c : Char) : Bool := '0' ≤ c && c ≤ '9'

/-- Value of a digit run, as `int()` of the matched group. -/
def natOfDigits (ds : List Char) : ℕ :=
  ds.foldl (fun n c => 10 * n + (c.toNat - '0'.toNat)) 0

/-- `re.search(key + r"(\d+)", fname)`: the leftmost occurrence of the
literal `key` followed by at least one digit; the value of the maximal
digit run after it. -/
def searchKeyNum (key : List Char) : List Char → Option ℕ
  | [] => none
  | c :: rest =>
      if key.isPrefixOf (c :: rest)
          ∧ ¬ ((c :: rest).drop key.length).takeWhile isDigitChar = [] then
        some (natOfDigits (((c :: rest).drop key.length).takeWhile isDigitChar))
      else searchKeyNum key rest

/-- `re.search(r"c(\d+)(?=\.tif)", fname)`: the leftmost `c` followed by
digits immediately followed by ".tif".  Backtracking into the digit run
cannot help, because the lookahead starts with a non-digit, so only the
maximal run matters.  The regex group is the digit string itself. -/
def searchChannel : List Char → Option (List Char)
  | [] => none
  | c :: rest =>
      if c = 'c' ∧ ¬ rest.takeWhile isDigitChar = []
          ∧ (".tif".data).isPrefixOf (rest.drop (rest.takeWhile isDigitChar).length) then
        some (rest.takeWhile isDigitChar)
      else searchChannel rest

/-- The dict returned by `parse_filename`. -/
structure Metadata where
  filename : String
  region : String
  genotype : String
  seedling : Option ℕ
  zslice : Option ℕ
  channel : String
  magnification : String
  fluorophore : String
deriving DecidableEq, Repr

/-- `parse_filename(file_path)`.  The stored `filename` is `str(Path(...))`,
which equals the input for the plain relative paths used here. -/
def parse_filename (file_path : String) : Metadata :=
  { filename := file_path
    region := firstKeyword ["meristem", "elongation"] ((pathParts file_path).map strLower)
    genotype := firstKeyword ["control", "mutant"] ((pathParts file_path).map strLower)
    seedling := searchKeyNum ("seedling".data) (strLower (pathName file_path)).data
    zslice := searchKeyNum ("_z".data) (strLower (pathName file_path)).data
    channel :=
      match searchChannel (strLower (pathName file_path)).data with
      | some ds => "c" ++ String.mk ds
      | none => "unknown"
    magnification := "40x"
    fluorophore := "mCherry-H2B" }

/-- `sum(m["area_pixels"] for m in measurements)`. -/
def total_area (ms : List SpotMeasurement) : ℕ :=
  (ms.map SpotMeasurement.area_pixels).sum

/-- `sum(m["integrated_intensity"] for m in measurements)`. -/
def total_intensity (ms : List SpotMeasurement) : ℚ :=
  (ms.map SpotMeasurement.integrated_intensity).sum

/-- `mean_intensity = total_intensity / total_area if total_area else 0`. -/
def summary_mean (ms : List SpotMeasurement) : ℚ :=
  if ¬ total_area ms = 0 then total_intensity ms / (total_area ms : ℚ) else 0

/-- One line of the flat summary CSV. -/
structure SummaryRow where
  filename : String
  region : String
  genotype : String
  seedling : Option ℕ
  zslice : Option ℕ
  total_area : ℕ
  integrated_intensity : ℚ
  mean_intensity : ℚ
deriving DecidableEq, Repr

/-- One row of the `spots` table. -/
structure SpotRow where
  filename : String
  magnification : String
  zslice : Option ℕ
  channel : String
  label : ℕ
  area_pixels : ℕ
  mean_intensity : ℚ
  integrated_intensity : ℚ
deriving DecidableEq, Repr

/-- One row of the aggregate `images` table. -/
structure ImageRow where
  filename : String
  magnification : String
  zslice : Option ℕ
  channel : String
  total_area : ℕ
  mean_intensity : ℚ
  integrated_intensity : ℚ
deriving DecidableEq, Repr

/-- The in-place update `metadata["region"] = ...; metadata["genotype"] = ...`
performed by `store_measurements_in_sql` on the caller's metadata dict
("make sure metadata knows the biological context"): a binary keyword test
on the lowercased filename string that never yields `"unknown"`. -/
def storeMetadataUpdate (md : Metadata) : Metadata :=
  { md with
    region :=
      if hasSub ("meristem".data) (strLower md.filename).data then "meristem"
      else "elongation"
    genotype :=
      if hasSub ("control".data) (strLower md.filename).data then "control"
      else "mutant" }

/-- The observable effect of `store_measurements_in_sql(db_path, metadata,
measurements)`: the post-call state of the mutated metadata dict, the
appended CSV summary row, the inserted per-spot rows, and the inserted
aggregate image row. -/
def store_measurements_in_sql (md : Metadata) (ms : List SpotMeasurement) :
    Metadata × SummaryRow × List SpotRow × ImageRow :=
  let md2 := storeMetadataUpdate md
  (md2,
   ⟨md2.filename, md2.region, md2.genotype, md2.seedling, md2.zslice,
     total_area ms, total_intensity ms, summary_mean ms⟩,
   ms.map (fun m =>
     ⟨md2.filename, md2.magnification, md2.zslice, md2.channel,
       m.label, m.area_pixels, m.mean_intensity, m.integrated_intensity⟩),
   ⟨md2.filename, md2.magnification, md2.zslice, md2.channel,
     total_area ms, summary_mean ms, total_intensity ms⟩)

/-- The per-file work of `process_folder` in `seg_process_batch.py`:
parse, load, segment (`min_area=5` plus the default radii 3 and 1),
store.  A file whose image fails to load is skipped (`continue`) and
contributes nothing. -/
structure FileResult where
  meta : Metadata
  spots : List SpotMeasurement
  stored : Metadata × SummaryRow × List SpotRow × ImageRow

/-- One iteration of the per-file loop of `process_folder`.  `tv` supplies
the local threshold surface the library computes for a loaded image. -/
def process_file (ub : ℕ) (tv : Img ℕ → ℕ → ℕ → ℚ) (file : String × RawBuffer) :
    Option FileResult :=
  match load_tif ub file.2 with
  | none => none
  | some img =>
      some ⟨parse_filename file.1,
        (segment_and_measure_spots (imgToRat img) 5 3 1 (tv img)).1,
        store_measurements_in_sql (parse_filename file.1)
          (segment_and_measure_spots (imgToRat img) 5 3 1 (tv img)).1⟩

/-- The batch loop of `process_folder`: every file is attempted, failures
are skipped, and the batch continues. -/
def process_folder (ub : ℕ) (tv : Img ℕ → ℕ → ℕ → ℚ)
    (files : List (String × RawBuffer)) : List FileResult :=
  files.filterMap (process_file ub tv)

/-- C9 — An undecodable source yields the distinguishable failure value
`none` (the caught-exception `None` of `load_tif`), the caller skips
exactly that file, and the batch output over any surrounding files is
unchanged: a per-file load failure never aborts the batch.  A file
produces a result precisely when its image loads. -/
theorem load_failure_skips_file_batch_continues (ub : ℕ) (tv : Img ℕ → ℕ → ℕ → ℚ)
    (pre post : List (String × RawBuffer)) (badname : String) :
    load_tif ub RawBuffer.undecodable = none
    ∧ process_folder ub tv (pre ++ (badname, RawBuffer.undecodable) :: post)
        = process_folder ub tv (pre ++ post)
    ∧ ∀ f : String × RawBuffer,
        (process_file ub tv f).isSome = (load_tif ub f.2).isSome := by
  refine ⟨rfl, ?_, ?_⟩
  · unfold process_folder
    rw [List.filterMap_append, List.filterMap_append]
    have hnone : process_file ub tv (badname, RawBuffer.undecodable) = none := rfl
    rw [List.filterMap_cons_none hnone]
  · intro f
    unfold process_file
    cases hl : load_tif ub f.2 <;> simp [hl]

/-- C4 — The per-image aggregates are plain sums over the measurement
list; the mean is total intensity over total area with the zero-area case
defined as exactly 0 (in particular for the empty spot list); and the
persisted summary row carries exactly these aggregates. -/
theorem summary_aggregates (ms : List SpotMeasurement) (md : Metadata) :
    total_area ms = (ms.map SpotMeasurement.area_pixels).sum
    ∧ total_intensity ms = (ms.map SpotMeasurement.integrated_intensity).sum
    ∧ summary_mean ms
        = (if total_area ms = 0 then 0 else total_intensity ms / (total_area ms : ℚ))
    ∧ total_area [] = 0
    ∧ summary_mean [] = 0
    ∧ ((store_measurements_in_sql md ms).2.1).total_area = total_area ms
    ∧ ((store_measurements_in_sql md ms).2.1).integrated_intensity = total_intensity ms
    ∧ ((store_measurements_in_sql md ms).2.1).mean_intensity = summary_mean ms := by
  refine ⟨rfl, rfl, ?_, rfl, rfl, rfl, rfl, rfl⟩
  by_cases h : total_area ms = 0 <;> simp [summary_mean, h]

/-- C7 — `parse_filename` extracts seedling, z-slice and channel by the
documented leftmost digit-run searches: the claim example
`...seedling12_elong_z16c1.tif` parses to seedling 12, z-slice 16 and
channel `"c1"`, and a stacked-image name without `_z` digits or a channel
suffix parses to `none` / `"unknown"`. -/
theorem parse_filename_extracts_fields :
    (parse_filename "control_elongation_zone/h2b-istl345_seedling12_elong_z16c1.tif").seedling
        = some 12
    ∧ (parse_filename "control_elongation_zone/h2b-istl345_seedling12_elong_z16c1.tif").zslice
        = some 16
    ∧ (parse_filename "control_elongation_zone/h2b-istl345_seedling12_elong_z16c1.tif").channel
        = "c1"
    ∧ (parse_filename "istl_control_elongation_zone/h2b-istl345_normal_11_seedling3_elong.tif").seedling
        = some 3
    ∧ (parse_filename "istl_control_elongation_zone/h2b-istl345_normal_11_seedling3_elong.tif").zslice
        = none
    ∧ (parse_filename "istl_control_elongation_zone/h2b-istl345_normal_11_seedling3_elong.tif").channel
        = "unknown" := by
  refine ⟨?_, ?_, ?_, ?_, ?_, ?_⟩ <;> decide

/-- C3 counterexample — a path containing none of the keywords parses to
region and genotype `"unknown"`, but the flat summary record persisted by
`store_measurements_in_sql` does not preserve them: the store step
recomputes both by a binary test on the filename and writes
`"elongation"` / `"mutant"`. -/
theorem unknown_not_preserved_downstream :
    (parse_filename "foo/bar.tif").region = "unknown"
    ∧ (parse_filename "foo/bar.tif").genotype = "unknown"
    ∧ ((store_measurements_in_sql (parse_filename "foo/bar.tif") []).2.1).region
        = "elongation"
    ∧ ((store_measurements_in_sql (parse_filename "foo/bar.tif") []).2.1).genotype
        = "mutant" := by
  refine ⟨?_, ?_, ?_, ?_⟩ <;> decide

/-- C3 amended — `parse_filename` degrades missing keywords to `"unknown"`
without failing (its region and genotype always land in the closed keyword
set with `"unknown"` as the fallback), but the persisted flat summary
record never carries `"unknown"`: the store step recomputes region and
genotype from the filename by binary substring tests, so an `"unknown"`
from parsing is always replaced (by `"elongation"` / `"mutant"` when no
keyword occurs in the filename). -/
theorem parse_degrades_store_replaces (path : String) (md : Metadata)
    (ms : List SpotMeasurement) :
    ((parse_filename path).region = "unknown"
      ∨ (parse_filename path).region = "meristem"
      ∨ (parse_filename path).region = "elongation")
    ∧ ((parse_filename path).genotype = "unknown"
      ∨ (parse_filename path).genotype = "control"
      ∨ (parse_filename path).genotype = "mutant")
    ∧ ¬ ((store_measurements_in_sql md ms).2.1).region = "unknown"
    ∧ ¬ ((store_measurements_in_sql md ms).2.1).genotype = "unknown"
    ∧ (parse_filename "foo/bar.tif").region = "unknown"
    ∧ (parse_filename "foo/bar.tif").genotype = "unknown" := by
  refine ⟨?_, ?_, ?_, ?_, by decide, by decide⟩
  · cases hf : List.find? (fun k => ((pathParts path).map strLower).any
        (fun s => hasSub k.data s.data)) ["meristem", "elongation"] with
    | none =>
        refine Or.inl ?_
        show firstKeyword ["meristem", "elongation"] ((pathParts path).map strLower)
          = "unknown"
        unfold firstKeyword
        rw [hf]
    | some k =>
        have hk := List.mem_of_find?_eq_some hf
        have hval : (parse_filename path).region = k := by
          show firstKeyword ["meristem", "elongation"] ((pathParts path).map strLower) = k
          unfold firstKeyword
          rw [hf]
        simp only [List.mem_cons, List.mem_singleton, List.not_mem_nil, or_false] at hk
        rcases hk with hk | hk
        · exact Or.inr (Or.inl (hval.trans hk))
        · exact Or.inr (Or.inr (hval.trans hk))
  · cases hf : List.find? (fun k => ((pathParts path).map strLower).any
        (fun s => hasSub k.data s.data)) ["control", "mutant"] with
    | none =>
        refine Or.inl ?_
        show firstKeyword ["control", "mutant"] ((pathParts path).map strLower) = "unknown"
        unfold firstKeyword
        rw [hf]
    | some k =>
        have hk := List.mem_of_find?_eq_some hf
        have hval : (parse_filename path).genotype = k := by
          show firstKeyword ["control", "mutant"] ((pathParts path).map strLower) = k
          unfold firstKeyword
          rw [hf]
        simp only [List.mem_cons, List.mem_singleton, List.not_mem_nil, or_false] at hk
        rcases hk with hk | hk
        · exact Or.inr (Or.inl (hval.trans hk))
        · exact Or.inr (Or.inr (hval.trans hk))
  · show ¬ (if hasSub ("meristem".data) (strLower md.filename).data then "meristem"
      else "elongation") = "unknown"
    split <;> decide
  · show ¬ (if hasSub ("control".data) (strLower md.filename).data then "control"
      else "mutant") = "unknown"
    split <;> decide

/-- C8 counterexample — the metadata record is not immutable after
creation: `store_measurements_in_sql` mutates the caller's dict in place,
here changing region and genotype of a keyword-free path from
`"unknown"` to `"elongation"` / `"mutant"`. -/
theorem metadata_mutated_by_store :
    ¬ (store_measurements_in_sql (parse_filename "a/b.tif") []).1
        = parse_filename "a/b.tif"
    ∧ (parse_filename "a/b.tif").region = "unknown"
    ∧ ((store_measurements_in_sql (parse_filename "a/b.tif") []).1).region
        = "elongation" := by
  refine ⟨?_, ?_, ?_⟩ <;> decide

/-- C8 amended — `ImageMetadata` is created once per file, and the only
later modification is that the persistence step overwrites its region and
genotype fields (recomputing them from the filename string); every other
field survives every pipeline stage unchanged. -/
theorem store_touches_only_region_genotype (md : Metadata) (ms : List SpotMeasurement) :
    ((store_measurements_in_sql md ms).1).filename = md.filename
    ∧ ((store_measurements_in_sql md ms).1).seedling = md.seedling
    ∧ ((store_measurements_in_sql md ms).1).zslice = md.zslice
    ∧ ((store_measurements_in_sql md ms).1).channel = md.channel
    ∧ ((store_measurements_in_sql md ms).1).magnification = md.magnification
    ∧ ((store_measurements_in_sql md ms).1).fluorophore = md.fluorophore
    ∧ ((store_measurements_in_sql md ms).1).region
        = (if hasSub ("meristem".data) (strLower md.filename).data then "meristem"
           else "elongation")
    ∧ ((store_measurements_in_sql md ms).1).genotype
        = (if hasSub ("control".data) (strLower md.filename).data then "control"
           else "mutant") := by
  exact ⟨rfl, rfl, rfl, rfl, rfl, rfl, rfl, rfl⟩

end Seg
